import Mathlib

/-!
Verification development for the `HanNet` wavefunction ansatz of
`src/dlqmc/nn/hannet.py` (repository `ae-foster/deepqmc`).

The orchestration code (`HanNet.__init__`, `HanNet.tracked_parameters`,
`HanNet.forward`) is translated from the source file.  The sub-modules it
uses (`LaughlinAnsatz`, `ElectronicSchnet`, `DistanceBasis`,
`NuclearAsymptotic`, `ElectronicAsymptotic`, `get_log_dnn`, `Concat`,
`triu_flat`, `pairwise_distance`, `NULL_DEBUG`, spin slicing from
`BaseWFNet`) live in repository files that are not part of the corpus;
each of those is modelled from the specification, as indicated by its doc
comment.  Machine floats are modelled by real numbers; the batch dimension
is dropped (samples are processed independently, per the spec's
concurrency section), so a configuration is a single sample.

The misspelt tensor method `flattten` on line 135 of the source raises an
`AttributeError` whenever the opposite-spin `ElectronicAsymptotic` module
is configured; `forward` is therefore modelled as returning
`Except Unit ℝ`, with `Except.error ()` standing for that exception.
-/

namespace DLQMC

/-- A particle or nucleus position: a 3-dimensional real coordinate vector. -/
abbrev Point : Type := Fin 3 → ℝ

/-- Modelled from the spec (§4.1 `PairwiseDistance`, source `pairwise_distance`
in `dlqmc/nn/base.py`, not in the corpus): the Euclidean distance between two
coordinate vectors.  The float-stabilisation of the square root near zero is a
numerical detail with no effect on the real-valued semantics. -/
noncomputable def eucDist (x y : Point) : ℝ :=
  Real.sqrt (∑ c, (x c - y c) ^ 2)

/-- The electron-electron distance matrix `pairwise_distance(rs, rs)` of one
sample (source line 100). -/
noncomputable def distsElec {n : ℕ} (rs : Fin n → Point) : Fin n → Fin n → ℝ :=
  fun i j => eucDist (rs i) (rs j)

/-- The strict upper-triangle index set of a square `k × k` array. -/
def pairsLT (k : ℕ) : Finset (Fin k × Fin k) :=
  Finset.univ.filter fun p => p.1 < p.2

/-- Modelled from the spec (`triu_flat` in `dlqmc/utils.py`, not in the
corpus): the flattened strict upper triangle of a square matrix.  The spec
(§4.7) only ever consumes it as "the set of pairwise distances", so it is
modelled as the multiset of strict-upper-triangle entries. -/
def triuFlat {k : ℕ} (d : Fin k → Fin k → ℝ) : Multiset ℝ :=
  (pairsLT k).val.map fun p => d p.1 p.2

/-- Modelled from the spec (`get_log_dnn` in `dlqmc/nn/base.py`, not in the
corpus): a feed-forward network recorded together with the construction
arguments it was instantiated with.  The spec describes it only as a shared
feed-forward network, so the learned map itself is the parameter `w`; the
input/output dimensions and layer options are recorded as data because the
claims speak about them. -/
structure PairDNN (L : Type) where
  inDim : ℕ
  outDim : ℕ
  nLayers : ℕ
  lastBias : Bool
  net : List ℝ → L

/-- Modelled from the spec: `get_log_dnn(in_dim, out_dim, SSP, n_layers,
last_bias)` returns a feed-forward network with the recorded dimensions; its
learned function is the parameter `w`. -/
def get_log_dnn {L : Type} (inDim outDim nLayers : ℕ) (lastBias : Bool)
    (w : List ℝ → L) : PairDNN L :=
  ⟨inDim, outDim, nLayers, lastBias, w⟩

/-- The coordinates of a point as a flat list of its 3 components. -/
def Point.toList (x : Point) : List ℝ := [x 0, x 1, x 2]

/-- Modelled from the spec (`Concat` in `dlqmc/nn/base.py`, not in the
corpus): concatenates the two particle coordinates and their scalar distance
into one feature vector (3 + 3 + 1 = 7 entries) and applies the wrapped
network. -/
def Concat {L : Type} (net : PairDNN L) (x y : Point) (d : ℝ) : L :=
  net.net (x.toList ++ y.toList ++ [d])

/-- The logistic sigmoid, the final activation `nn.Sigmoid()` appended to the
odd network (source line 82). -/
noncomputable def sigmoid (x : ℝ) : ℝ := 1 / (1 + Real.exp (-x))

/-- Modelled from the spec (§4.5, `LaughlinAnsatz` in `dlqmc/nn/anti.py`, not
in the corpus): the per-spin-group antisymmetrisation module, holding a shared
pairwise network and a final scalar network. -/
structure LaughlinAnsatz (L : Type) where
  pair : PairDNN L
  odd : L → ℝ

/-- Modelled from the spec (§4.5): the signed contribution of the ordered
particle pair `(p, q)`: the shared pairwise network is applied to the pair's
coordinates and distance in both orders and the results are subtracted, so the
contribution is odd under exchanging `p` and `q` (this is the "bias is
subtracted by antisymmetrization" mechanism mentioned in the source comments
at lines 48 and 54). -/
noncomputable def LaughlinAnsatz.term {L : Type} {k : ℕ} (a : LaughlinAnsatz L)
    (xs : Fin k → Point) (d : Fin k → Fin k → ℝ) (p q : Fin k) : ℝ :=
  a.odd (Concat a.pair (xs p) (xs q) (d p q)) -
    a.odd (Concat a.pair (xs q) (xs p) (d q p))

/-- Modelled from the spec (§4.5): the group scalar is the product over all
unordered particle pairs of the pair's odd contribution, which makes it flip
sign under any transposition inside the group and vanish when two member
coordinates coincide — the two guarantees §4.5 makes normative. -/
noncomputable def LaughlinAnsatz.forward {L : Type} {k : ℕ} (a : LaughlinAnsatz L)
    (xs : Fin k → Point) (d : Fin k → Fin k → ℝ) : ℝ :=
  ∏ p ∈ pairsLT k, a.term xs d p.1 p.2

/-- Modelled from the spec (§4.3, `ElectronicSchnet` in `dlqmc/nn/schnet.py`,
not in the corpus): the learned components of the message-passing embedding
network.  `embed` gives the initial per-particle embedding, which depends only
on the spin label so that same-spin particles are interchangeable; `msg` is
the shared message function for electron pairs, with a Boolean channel
distinguishing same-spin from opposite-spin partners; `msgNuc` is the message
function for nuclei (a distinguishable channel per nucleus); `upd` combines an
embedding with the aggregated electronic and nuclear messages.  All take the
interaction-round index first, giving one set of weights per round. -/
structure ElectronicSchnet (M : ℕ) (B E : Type) where
  nInteractions : ℕ
  embed : Bool → E
  msg : ℕ → Bool → B → E → E
  msgNuc : ℕ → Fin M → B → E
  upd : ℕ → E → E → E → E

/-- Modelled from the spec (§4.3): `t` rounds of message passing.  Messages
are aggregated by summation over all other electrons and over all nuclei,
using only the pairwise distance-basis features `fb` — never raw coordinates. -/
def ElectronicSchnet.run {M : ℕ} {B E : Type} [AddCommMonoid E]
    (s : ElectronicSchnet M B E) {n : ℕ} (isUp : Fin n → Bool)
    (fb : Fin n → Fin n ⊕ Fin M → B) : ℕ → Fin n → E
  | 0 => fun i => s.embed (isUp i)
  | t + 1 => fun i =>
      s.upd t (s.run isUp fb t i)
        (∑ j, if j = i then 0
          else s.msg t (isUp j == isUp i) (fb i (Sum.inl j)) (s.run isUp fb t j))
        (∑ ν, s.msgNuc t ν (fb i (Sum.inr ν)))

/-- The embedding network output: `nInteractions` rounds of message passing
(source lines 104-105). -/
def ElectronicSchnet.out {M : ℕ} {B E : Type} [AddCommMonoid E]
    (s : ElectronicSchnet M B E) {n : ℕ} (isUp : Fin n → Bool)
    (fb : Fin n → Fin n ⊕ Fin M → B) : Fin n → E :=
  s.run isUp fb s.nInteractions

/-- Modelled from the spec (§4.6, `NuclearAsymptotic` in `dlqmc/nn/base.py`,
not in the corpus): a strictly positive smooth factor built from the full
electron-nucleus distance matrix, the nuclear charges and the learnable
ionisation potential.  The spec fixes only those qualitative properties; the
concrete smooth, positive, electron-permutation-invariant form used here is
one instance of them. -/
noncomputable def NuclearAsymptotic {n M : ℕ} (charges : Fin M → ℝ) (ionPot : ℝ)
    (d : Fin n → Fin M → ℝ) : ℝ :=
  Real.exp (-(Real.sqrt (2 * ionPot) * ∑ i, ∑ ν, d i ν / (1 + charges ν * d i ν)))

/-- Modelled from the spec (§4.7, `ElectronicAsymptotic` in
`dlqmc/nn/base.py`, not in the corpus): the electron-electron cusp factor,
`exp(-Σ cusp/(1+d))` over the given collection of pairwise distances, with the
learnable cusp coefficient `cusp`. -/
noncomputable def ElectronicAsymptotic (cusp : ℝ) (ds : Multiset ℝ) : ℝ :=
  Real.exp (-(ds.map fun d => cusp / (1 + d)).sum)

/-- The spin label of electron `i`: `true` for the up group.  Modelled from
the spec (§3: the configuration is partitioned into the contiguous up group
`[0, n_up)` followed by the down group; `spin_slices` of `BaseWFNet` is not in
the corpus). -/
def isUpSpin (nup : ℕ) {n : ℕ} (i : Fin n) : Bool := decide ((i : ℕ) < nup)

/-- The embedding of the up group into the full electron index range
(the slice `[0, n_up)` of `spin_slices`). -/
def upIdx {nup ndown : ℕ} : Fin nup → Fin (nup + ndown) := Fin.castAdd ndown

/-- The embedding of the down group into the full electron index range
(the slice `[n_up, n_up + n_down)` of `spin_slices`). -/
def downIdx {nup ndown : ℕ} : Fin ndown → Fin (nup + ndown) := Fin.natAdd nup

/-- The state of a constructed `HanNet` model (source lines 19-87): geometry,
the tracked physical scalars, the optional cusp modules (each reduced to its
cusp coefficient), the embedding network, the orbital head, and the optional
per-spin-group antisymmetrisation modules. -/
structure HanNet (nup ndown M : ℕ) (B E L : Type) where
  coords : Fin M → Point
  charges : Fin M → ℝ
  ionPot : ℝ
  distBasis : ℝ → B
  asympSame : Option ℝ
  asympAnti : Option ℝ
  schnet : ElectronicSchnet M B E
  orbital : E → ℝ
  antiUp : Option (LaughlinAnsatz L)
  antiDown : Option (LaughlinAnsatz L)

/-- The constructor arguments of `HanNet.__init__` (source lines 20-38)
together with the learned weights of the sub-networks built inside it.
`orbitalFactory`, `pairFactory` and `oddFactory` are the optional
user-supplied factories; `none` selects the in-source default factory
(source lines 40-55), whose learned map is the corresponding `...W` field. -/
structure Config (nup ndown M : ℕ) (B E L : Type) where
  geom : Fin M → Point
  charges : Fin M → ℝ
  latentDim : ℕ
  embeddingDim : ℕ
  ionPot : ℝ
  cuspSame : Option ℝ
  cuspAnti : Option ℝ
  orbitalFactory : Option (ℕ → E → ℝ)
  pairFactory : Option (ℕ → ℕ → PairDNN L)
  oddFactory : Option (ℕ → L → ℝ)
  orbitalW : E → ℝ
  pairW : List ℝ → L
  oddW : L → ℝ
  distBasisW : ℝ → B
  nInteractions : ℕ
  schnetEmbed : Bool → E
  schnetMsg : ℕ → Bool → B → E → E
  schnetMsgNuc : ℕ → Fin M → B → E
  schnetUpd : ℕ → E → E → E → E

/-- The default `pair_factory` (source lines 45-49):
`get_log_dnn(in_dim, latent_dim, SSP, n_layers=2, last_bias=False)`. -/
def Config.defaultPairFactory {nup ndown M : ℕ} {B E L : Type}
    (cfg : Config nup ndown M B E L) : ℕ → ℕ → PairDNN L :=
  fun in_dim latent_dim => get_log_dnn in_dim latent_dim 2 false cfg.pairW

/-- The pair factory actually used: the user-supplied one if present, else the
default (source lines 45-49). -/
def Config.pairFactoryUsed {nup ndown M : ℕ} {B E L : Type}
    (cfg : Config nup ndown M B E L) : ℕ → ℕ → PairDNN L :=
  cfg.pairFactory.getD cfg.defaultPairFactory

/-- The odd network of an antisymmetrisation module:
`nn.Sequential(odd_factory(latent_dim), nn.Sigmoid())` (source line 82), with
the default `odd_factory` of source lines 51-55 modelled by the learned map
`oddW`. -/
noncomputable def Config.oddNet {nup ndown M : ℕ} {B E L : Type}
    (cfg : Config nup ndown M B E L) : L → ℝ :=
  fun z => sigmoid ((cfg.oddFactory.getD fun _latent_dim => cfg.oddW) cfg.latentDim z)

/-- `HanNet.__init__` (source lines 20-87): registers the geometry, builds the
optional `ElectronicAsymptotic` modules exactly when the corresponding cusp
coefficient is configured (lines 64-67), builds the embedding network and
orbital head (lines 68-78), and builds one `LaughlinAnsatz` per spin group
with more than one particle, each from `Concat(pair_factory(7, latent_dim))`
and the sigmoid-terminated odd network (lines 79-87). -/
noncomputable def HanNet.init {nup ndown M : ℕ} {B E L : Type}
    (cfg : Config nup ndown M B E L) : HanNet nup ndown M B E L where
  coords := cfg.geom
  charges := cfg.charges
  ionPot := cfg.ionPot
  distBasis := cfg.distBasisW
  asympSame := cfg.cuspSame
  asympAnti := cfg.cuspAnti
  schnet := ⟨cfg.nInteractions, cfg.schnetEmbed, cfg.schnetMsg, cfg.schnetMsgNuc,
    cfg.schnetUpd⟩
  orbital := (cfg.orbitalFactory.getD fun _embedding_dim => cfg.orbitalW) cfg.embeddingDim
  antiUp :=
    if 1 < nup then
      some ⟨cfg.pairFactoryUsed 7 cfg.latentDim, cfg.oddNet⟩
    else none
  antiDown :=
    if 1 < ndown then
      some ⟨cfg.pairFactoryUsed 7 cfg.latentDim, cfg.oddNet⟩
    else none

section Forward

variable {nup ndown M : ℕ} {B E L : Type} [AddCommMonoid E]

/-- The electron-nucleus distance matrix `pairwise_distance(rs, coords)`
(source line 101). -/
noncomputable def HanNet.distsNuc (m : HanNet nup ndown M B E L)
    (rs : Fin (nup + ndown) → Point) : Fin (nup + ndown) → Fin M → ℝ :=
  fun i ν => eucDist (rs i) (m.coords ν)

/-- The concatenated distance matrix `torch.cat([dists_elec, dists_nuc],
dim=2)` (source line 102), with the column index split as a sum type. -/
noncomputable def HanNet.distsAll (m : HanNet nup ndown M B E L)
    (rs : Fin (nup + ndown) → Point) :
    Fin (nup + ndown) → Fin (nup + ndown) ⊕ Fin M → ℝ :=
  fun i => Sum.elim (distsElec rs i) (m.distsNuc rs i)

/-- The per-particle embeddings `xs = schnet(dist_basis(dists))` (source
lines 103-105). -/
noncomputable def HanNet.xs (m : HanNet nup ndown M B E L)
    (rs : Fin (nup + ndown) → Point) : Fin (nup + ndown) → E :=
  m.schnet.out (isUpSpin nup) fun i k => m.distBasis (m.distsAll rs i k)

/-- The Jastrow log-amplitude `self.orbital(xs).squeeze(dim=-1).sum(dim=-1)`
(source line 106). -/
noncomputable def HanNet.jastrow (m : HanNet nup ndown M B E L)
    (rs : Fin (nup + ndown) → Point) : ℝ :=
  ∑ i, m.orbital (m.xs rs i)

/-- The up-group antisymmetrisation factor: `1.0` when the module is absent,
else its value on the up slice of the coordinates and of the electron-electron
distance matrix (source lines 107-121). -/
noncomputable def HanNet.antiUpF (m : HanNet nup ndown M B E L)
    (rs : Fin (nup + ndown) → Point) : ℝ :=
  match m.antiUp with
  | none => 1
  | some a =>
      a.forward (fun i => rs (upIdx i)) fun i j =>
        distsElec rs (upIdx i) (upIdx j)

/-- The down-group antisymmetrisation factor (source lines 107-121). -/
noncomputable def HanNet.antiDownF (m : HanNet nup ndown M B E L)
    (rs : Fin (nup + ndown) → Point) : ℝ :=
  match m.antiDown with
  | none => 1
  | some a =>
      a.forward (fun i => rs (downIdx i)) fun i j =>
        distsElec rs (downIdx i) (downIdx j)

/-- The nuclear asymptotic factor `self.asymp_nuc(dists_nuc)` (source
line 122). -/
noncomputable def HanNet.asympNucF (m : HanNet nup ndown M B E L)
    (rs : Fin (nup + ndown) → Point) : ℝ :=
  NuclearAsymptotic m.charges m.ionPot (m.distsNuc rs)

/-- The same-spin asymptotic factor (source lines 123-132): when the module is
configured it is applied to the concatenation of the flattened upper triangles
of the two within-group distance blocks; otherwise the factor is `1.0`. -/
noncomputable def HanNet.asympSameF (m : HanNet nup ndown M B E L)
    (rs : Fin (nup + ndown) → Point) : ℝ :=
  match m.asympSame with
  | none => 1
  | some c =>
      ElectronicAsymptotic c
        (triuFlat (fun i j : Fin nup => distsElec rs (upIdx i) (upIdx j)) +
          triuFlat fun i j : Fin ndown => distsElec rs (downIdx i) (downIdx j))

/-- The opposite-spin asymptotic factor (source lines 133-139): `1.0` when the
module is absent.  When it is configured, the source calls the non-existent
tensor method `flattten` (a misspelling of `flatten`, line 135) on the
up-versus-down distance block, so evaluation raises an `AttributeError`,
modelled as `Except.error ()`. -/
def HanNet.asympAntiF (m : HanNet nup ndown M B E L)
    (_rs : Fin (nup + ndown) → Point) : Except Unit ℝ :=
  match m.asympAnti with
  | none => Except.ok 1
  | some _ => Except.error ()

/-- `HanNet.forward` (source lines 99-141) with its diagnostic context: the
debug argument is threaded through as a log of named recorded scalars; the
scalars recorded by the missing sub-modules under the `schnet` and `anti_*`
scopes are not modelled.  Returns the amplitude (or the `AttributeError`
raised while computing the opposite-spin asymptotic factor) together with the
final log. -/
noncomputable def HanNet.forwardD (m : HanNet nup ndown M B E L)
    (rs : Fin (nup + ndown) → Point) (dbg : List (String × ℝ)) :
    Except Unit ℝ × List (String × ℝ) :=
  let dbg1 := dbg ++ [("jastrow", m.jastrow rs), ("asymp_nuc", m.asympNucF rs),
    ("asymp_same", m.asympSameF rs)]
  match m.asympAntiF rs with
  | Except.error e => (Except.error e, dbg1)
  | Except.ok aa =>
      (Except.ok (m.antiUpF rs * m.antiDownF rs * Real.exp (m.jastrow rs) *
          (m.asympNucF rs * m.asympSameF rs * aa)),
        dbg1 ++ [("asymp_anti", aa)])

/-- Modelled from the spec (§6: `NULL_DEBUG` of `dlqmc/utils.py`, not in the
corpus): the default no-op diagnostic context, an empty log. -/
def NULL_DEBUG : List (String × ℝ) := []

/-- `HanNet.forward` with the default no-op diagnostic context, keeping only
the amplitude (source lines 99-141). -/
noncomputable def HanNet.forward (m : HanNet nup ndown M B E L)
    (rs : Fin (nup + ndown) → Point) : Except Unit ℝ :=
  (m.forwardD rs NULL_DEBUG).1

/-- The state-passing reading of one `forward` call: the Python method binds
only local names (`dists_elec`, `xs`, `jastrow`, `antis`, ...) and never
assigns to `self`, so the translated call returns the model state unchanged
next to the amplitude. -/
noncomputable def HanNet.forwardP (m : HanNet nup ndown M B E L)
    (rs : Fin (nup + ndown) → Point) :
    Except Unit ℝ × HanNet nup ndown M B E L :=
  (m.forward rs, m)

/-- `HanNet.tracked_parameters` (source lines 89-97): the ionisation
potential, then the cusp coefficient of each configured electronic-asymptotic
module, in source order.  (The `if asymp:` truthiness test on a module object
is `is not None`.) -/
def HanNet.tracked_parameters (m : HanNet nup ndown M B E L) :
    List (String × ℝ) :=
  [("ion_pot", m.ionPot)] ++
    ((match m.asympSame with
      | some c => [("cusp_same", c)]
      | none => []) ++
      match m.asympAnti with
      | some c => [("cusp_anti", c)]
      | none => [])

end Forward

/-- A two-index family that is odd under swapping its indices, the shape of
the pair contributions of the antisymmetrisation module. -/
def PairAntisym {k : ℕ} (f : Fin k → Fin k → ℝ) : Prop :=
  ∀ i j, f j i = -f i j

/-- A permutation scales every odd pair family's strict-upper-triangle product
by the constant `c`. -/
def ScalesBy {k : ℕ} (σ : Equiv.Perm (Fin k)) (c : ℝ) : Prop :=
  ∀ f : Fin k → Fin k → ℝ, PairAntisym f →
    ∏ p ∈ pairsLT k, f (σ p.1) (σ p.2) = c * ∏ p ∈ pairsLT k, f p.1 p.2

/-- A permutation leaves every symmetric pair family's strict-upper-triangle
sum unchanged. -/
def SumInvar {k : ℕ} (σ : Equiv.Perm (Fin k)) : Prop :=
  ∀ g : Fin k → Fin k → ℝ, (∀ i j, g i j = g j i) →
    ∑ p ∈ pairsLT k, g (σ p.1) (σ p.2) = ∑ p ∈ pairsLT k, g p.1 p.2

/-- A concrete configuration with trivial placeholder weights, used to
instantiate the theorems on explicit inputs. -/
noncomputable def trivialConfig (nup ndown M : ℕ)
    (cuspSame cuspAnti : Option ℝ) : Config nup ndown M Unit ℝ Unit where
  geom := fun _ _ => 0
  charges := fun _ => 1
  latentDim := 10
  embeddingDim := 128
  ionPot := 1 / 2
  cuspSame := cuspSame
  cuspAnti := cuspAnti
  orbitalFactory := none
  pairFactory := none
  oddFactory := none
  orbitalW := fun x => x
  pairW := fun _ => ()
  oddW := fun _ => 0
  distBasisW := fun _ => ()
  nInteractions := 3
  schnetEmbed := fun _ => 0
  schnetMsg := fun _ _ _ x => x
  schnetMsgNuc := fun _ _ _ => 0
  schnetUpd := fun _ x y z => x + y + z

/-- A concrete particle configuration placing every particle at the origin. -/
def constRs (n : ℕ) : Fin n → Point := fun _ _ => 0

end DLQMC

namespace DLQMC

theorem mem_pairsLT {k : ℕ} {p : Fin k × Fin k} : p ∈ pairsLT k ↔ p.1 < p.2 := by
  simp [pairsLT]

/-- An adjacent transposition preserves the strict order of every index pair
other than the transposed one. -/
theorem swap_adj_lt {k : ℕ} {a b p q : Fin k} (hab : (a : ℕ) + 1 = (b : ℕ))
    (hpq : p < q) (hne : (p, q) ≠ (a, b)) :
    Equiv.swap a b p < Equiv.swap a b q := by
  have hm : ¬((p : ℕ) = (a : ℕ) ∧ (q : ℕ) = (b : ℕ)) := by
    intro h
    exact hne (by
      rw [Prod.mk.injEq]
      exact ⟨Fin.ext h.1, Fin.ext h.2⟩)
  have hpq' : (p : ℕ) < (q : ℕ) := hpq
  rw [Fin.lt_def]
  rw [Equiv.swap_apply_def, Equiv.swap_apply_def]
  split_ifs with h1 h2 h3 h4 h5 h6 h7 h8 <;>
    simp_all [Fin.ext_iff] <;> omega

/-- An adjacent transposition maps the strict upper triangle with the
transposed pair removed into itself. -/
theorem swapAdj_mem_erase {k : ℕ} {a b : Fin k} (hab : (a : ℕ) + 1 = (b : ℕ)) :
    ∀ p ∈ (pairsLT k).erase (a, b),
      (Equiv.swap a b p.1, Equiv.swap a b p.2) ∈ (pairsLT k).erase (a, b) := by
  intro p hp
  rcases Finset.mem_erase.mp hp with ⟨hpne, hplt⟩
  have hlt := swap_adj_lt hab (mem_pairsLT.mp hplt) (by
    intro h
    exact hpne (by rw [← h]))
  refine Finset.mem_erase.mpr ⟨?_, mem_pairsLT.mpr hlt⟩
  intro h
  rw [Prod.mk.injEq] at h
  have h1 : p.1 = b := by
    have := congrArg (Equiv.swap a b) h.1
    simpa [Equiv.swap_apply_right] using this
  have h2 : p.2 = a := by
    have := congrArg (Equiv.swap a b) h.2
    simpa [Equiv.swap_apply_left] using this
  have := mem_pairsLT.mp hplt
  rw [h1, h2, Fin.lt_def] at this
  omega

/-- The adjacent transposition fixes (as a bijection) the strict upper
triangle with the transposed pair removed, up to reordering. -/
theorem prod_pairsLT_erase_adjSwap {k : ℕ} (g : Fin k → Fin k → ℝ)
    {a b : Fin k} (hab : (a : ℕ) + 1 = (b : ℕ)) :
    ∏ p ∈ (pairsLT k).erase (a, b),
        g (Equiv.swap a b p.1) (Equiv.swap a b p.2) =
      ∏ p ∈ (pairsLT k).erase (a, b), g p.1 p.2 := by
  refine Finset.prod_nbij'
    (fun p => (Equiv.swap a b p.1, Equiv.swap a b p.2))
    (fun p => (Equiv.swap a b p.1, Equiv.swap a b p.2))
    (swapAdj_mem_erase hab) (swapAdj_mem_erase hab) ?_ ?_ ?_
  · intro p _
    simp
  · intro p _
    simp
  · intro p _
    rfl

/-- Sum version of `prod_pairsLT_erase_adjSwap`. -/
theorem sum_pairsLT_erase_adjSwap {k : ℕ} (g : Fin k → Fin k → ℝ)
    {a b : Fin k} (hab : (a : ℕ) + 1 = (b : ℕ)) :
    ∑ p ∈ (pairsLT k).erase (a, b),
        g (Equiv.swap a b p.1) (Equiv.swap a b p.2) =
      ∑ p ∈ (pairsLT k).erase (a, b), g p.1 p.2 := by
  refine Finset.sum_nbij'
    (fun p => (Equiv.swap a b p.1, Equiv.swap a b p.2))
    (fun p => (Equiv.swap a b p.1, Equiv.swap a b p.2))
    (swapAdj_mem_erase hab) (swapAdj_mem_erase hab) ?_ ?_ ?_
  · intro p _
    simp
  · intro p _
    simp
  · intro p _
    rfl

/-- An adjacent transposition negates the strict-upper-triangle product of an
odd pair family. -/
theorem scalesBy_adjSwap {k : ℕ} {a b : Fin k} (hab : (a : ℕ) + 1 = (b : ℕ)) :
    ScalesBy (Equiv.swap a b) (-1) := by
  intro f hf
  have hablt : a < b := by rw [Fin.lt_def]; omega
  have hmem : (a, b) ∈ pairsLT k := mem_pairsLT.mpr hablt
  rw [← Finset.mul_prod_erase _ _ hmem, ← Finset.mul_prod_erase _ _ hmem]
  rw [prod_pairsLT_erase_adjSwap _ hab]
  simp only [Equiv.swap_apply_left, Equiv.swap_apply_right]
  rw [hf a b]
  ring

/-- Scaling factors multiply along composition of permutations. -/
theorem scalesBy_mul {k : ℕ} {σ ρ : Equiv.Perm (Fin k)} {c d : ℝ}
    (hσ : ScalesBy σ c) (hρ : ScalesBy ρ d) : ScalesBy (σ * ρ) (d * c) := by
  intro f hf
  have hg : PairAntisym fun s t => f (σ s) (σ t) := fun i j => hf (σ i) (σ j)
  calc ∏ p ∈ pairsLT k, f ((σ * ρ) p.1) ((σ * ρ) p.2)
      = ∏ p ∈ pairsLT k, (fun s t => f (σ s) (σ t)) (ρ p.1) (ρ p.2) := rfl
    _ = d * ∏ p ∈ pairsLT k, f (σ p.1) (σ p.2) := hρ _ hg
    _ = d * (c * ∏ p ∈ pairsLT k, f p.1 p.2) := by rw [hσ f hf]
    _ = d * c * ∏ p ∈ pairsLT k, f p.1 p.2 := by ring

/-- Any transposition of two indices at distance `g + 1` negates the
strict-upper-triangle product of an odd pair family. -/
theorem scalesBy_swap_gap {k : ℕ} :
    ∀ (g : ℕ) (a b : Fin k), (a : ℕ) + 1 + g = (b : ℕ) →
      ScalesBy (Equiv.swap a b) (-1) := by
  intro g
  induction g with
  | zero =>
      intro a b hab
      exact scalesBy_adjSwap (by omega)
  | succ g ih =>
      intro a b hab
      have hbk : (b : ℕ) < k := b.isLt
      set c : Fin k := ⟨(b : ℕ) - 1, by omega⟩ with hc
      have hcb : (c : ℕ) + 1 = (b : ℕ) := by simp [hc]; omega
      have hac : (a : ℕ) + 1 + g = (c : ℕ) := by simp [hc]; omega
      have hne1 : a ≠ c := by
        intro h; rw [h] at hac; omega
      have hne2 : a ≠ b := by
        intro h; rw [h] at hab; omega
      have key : Equiv.swap a b =
          Equiv.swap c b * Equiv.swap a c * Equiv.swap c b := by
        rw [Equiv.swap_mul_swap_mul_swap hne1 hne2]
        exact Equiv.swap_comm a b
      rw [key]
      have h1 := @scalesBy_adjSwap k c b hcb
      have h2 := ih a c hac
      have := scalesBy_mul (scalesBy_mul h1 h2) h1
      simpa using this

/-- Any transposition negates the strict-upper-triangle product of an odd
pair family. -/
theorem scalesBy_swap {k : ℕ} {a b : Fin k} (hab : a ≠ b) :
    ScalesBy (Equiv.swap a b) (-1) := by
  rcases lt_or_gt_of_ne hab with h | h
  · have : (a : ℕ) < (b : ℕ) := h
    exact scalesBy_swap_gap ((b : ℕ) - (a : ℕ) - 1) a b (by omega)
  · have : (b : ℕ) < (a : ℕ) := h
    rw [Equiv.swap_comm]
    exact scalesBy_swap_gap ((a : ℕ) - (b : ℕ) - 1) b a (by omega)

/-- An adjacent transposition preserves the strict-upper-triangle sum of a
symmetric pair family. -/
theorem sumInvar_adjSwap {k : ℕ} {a b : Fin k} (hab : (a : ℕ) + 1 = (b : ℕ)) :
    SumInvar (Equiv.swap a b) := by
  intro g hg
  have hablt : a < b := by rw [Fin.lt_def]; omega
  have hmem : (a, b) ∈ pairsLT k := mem_pairsLT.mpr hablt
  rw [← Finset.add_sum_erase _ _ hmem, ← Finset.add_sum_erase _ _ hmem]
  rw [sum_pairsLT_erase_adjSwap _ hab]
  simp only [Equiv.swap_apply_left, Equiv.swap_apply_right]
  rw [hg b a]

/-- `SumInvar` is closed under composition of permutations. -/
theorem sumInvar_mul {k : ℕ} {σ ρ : Equiv.Perm (Fin k)}
    (hσ : SumInvar σ) (hρ : SumInvar ρ) : SumInvar (σ * ρ) := by
  intro g hg
  have hgg : ∀ i j, g (σ i) (σ j) = g (σ j) (σ i) := fun i j => hg (σ i) (σ j)
  calc ∑ p ∈ pairsLT k, g ((σ * ρ) p.1) ((σ * ρ) p.2)
      = ∑ p ∈ pairsLT k, (fun s t => g (σ s) (σ t)) (ρ p.1) (ρ p.2) := rfl
    _ = ∑ p ∈ pairsLT k, g (σ p.1) (σ p.2) := hρ _ hgg
    _ = ∑ p ∈ pairsLT k, g p.1 p.2 := hσ g hg

/-- Any transposition of indices at distance `g + 1` preserves the
strict-upper-triangle sum of a symmetric pair family. -/
theorem sumInvar_swap_gap {k : ℕ} :
    ∀ (g : ℕ) (a b : Fin k), (a : ℕ) + 1 + g = (b : ℕ) →
      SumInvar (Equiv.swap a b) := by
  intro g
  induction g with
  | zero =>
      intro a b hab
      exact sumInvar_adjSwap (by omega)
  | succ g ih =>
      intro a b hab
      have hbk : (b : ℕ) < k := b.isLt
      set c : Fin k := ⟨(b : ℕ) - 1, by omega⟩ with hc
      have hcb : (c : ℕ) + 1 = (b : ℕ) := by simp [hc]; omega
      have hac : (a : ℕ) + 1 + g = (c : ℕ) := by simp [hc]; omega
      have hne1 : a ≠ c := by
        intro h; rw [h] at hac; omega
      have hne2 : a ≠ b := by
        intro h; rw [h] at hab; omega
      have key : Equiv.swap a b =
          Equiv.swap c b * Equiv.swap a c * Equiv.swap c b := by
        rw [Equiv.swap_mul_swap_mul_swap hne1 hne2]
        exact Equiv.swap_comm a b
      rw [key]
      exact sumInvar_mul (sumInvar_mul (sumInvar_adjSwap hcb) (ih a c hac)) (sumInvar_adjSwap hcb)

/-- Any transposition preserves the strict-upper-triangle sum of a symmetric
pair family. -/
theorem sumInvar_swap {k : ℕ} {a b : Fin k} (hab : a ≠ b) :
    SumInvar (Equiv.swap a b) := by
  rcases lt_or_gt_of_ne hab with h | h
  · have : (a : ℕ) < (b : ℕ) := h
    exact sumInvar_swap_gap ((b : ℕ) - (a : ℕ) - 1) a b (by omega)
  · have : (b : ℕ) < (a : ℕ) := h
    rw [Equiv.swap_comm]
    exact sumInvar_swap_gap ((a : ℕ) - (b : ℕ) - 1) b a (by omega)

/-- The Euclidean distance is symmetric in its two arguments. -/
theorem eucDist_symm (x y : Point) : eucDist x y = eucDist y x := by
  unfold eucDist
  congr 1
  refine Finset.sum_congr rfl fun c _ => ?_
  ring

/-- The pair contribution of the antisymmetrisation module is odd under
exchanging the two particles of the pair. -/
theorem LaughlinAnsatz.term_antisym {L : Type} {k : ℕ} (a : LaughlinAnsatz L)
    (xs : Fin k → Point) (d : Fin k → Fin k → ℝ) :
    PairAntisym (a.term xs d) := by
  intro i j
  unfold LaughlinAnsatz.term
  ring

/-- Exchanging two particles of the group negates the antisymmetrisation
module's output. -/
theorem LaughlinAnsatz.forward_swap {L : Type} {k : ℕ} (a : LaughlinAnsatz L)
    (xs : Fin k → Point) (d : Fin k → Fin k → ℝ) {p q : Fin k} (hpq : p ≠ q) :
    a.forward (fun t => xs (Equiv.swap p q t))
        (fun s t => d (Equiv.swap p q s) (Equiv.swap p q t)) =
      -a.forward xs d := by
  have hterm : ∀ s t : Fin k,
      a.term (fun u => xs (Equiv.swap p q u))
          (fun u v => d (Equiv.swap p q u) (Equiv.swap p q v)) s t =
        a.term xs d (Equiv.swap p q s) (Equiv.swap p q t) := fun s t => rfl
  unfold LaughlinAnsatz.forward
  calc ∏ r ∈ pairsLT k,
        a.term (fun u => xs (Equiv.swap p q u))
          (fun u v => d (Equiv.swap p q u) (Equiv.swap p q v)) r.1 r.2
      = ∏ r ∈ pairsLT k,
          a.term xs d (Equiv.swap p q r.1) (Equiv.swap p q r.2) := by
        refine Finset.prod_congr rfl fun r _ => hterm r.1 r.2
    _ = -1 * ∏ r ∈ pairsLT k, a.term xs d r.1 r.2 :=
        scalesBy_swap hpq (a.term xs d) (a.term_antisym xs d)
    _ = -∏ r ∈ pairsLT k, a.term xs d r.1 r.2 := by ring

/-- The antisymmetrisation module's output vanishes whenever two distinct
group members sit at the same coordinate (the distance matrix being symmetric
on the coinciding pair). -/
theorem LaughlinAnsatz.forward_eq_zero {L : Type} {k : ℕ} (a : LaughlinAnsatz L)
    (xs : Fin k → Point) (d : Fin k → Fin k → ℝ) {p q : Fin k} (hpq : p ≠ q)
    (hx : xs p = xs q) (hd : d p q = d q p) : a.forward xs d = 0 := by
  unfold LaughlinAnsatz.forward
  rcases lt_or_gt_of_ne hpq with h | h
  · refine Finset.prod_eq_zero (mem_pairsLT.mpr (show (p, q).1 < (p, q).2 from h)) ?_
    unfold LaughlinAnsatz.term
    rw [hx, hd]
    ring
  · refine Finset.prod_eq_zero (mem_pairsLT.mpr (show (q, p).1 < (q, p).2 from h)) ?_
    unfold LaughlinAnsatz.term
    rw [hx, hd]
    ring

/-- The identity permutation trivially preserves strict-upper-triangle sums. -/
theorem sumInvar_one {k : ℕ} : SumInvar (1 : Equiv.Perm (Fin k)) :=
  fun _ _ => rfl

/-- Summing a function over the flattened upper triangle is summing it over
the strict-upper-triangle index set. -/
theorem triuFlat_map_sum {k : ℕ} (d : Fin k → Fin k → ℝ) (f : ℝ → ℝ) :
    ((triuFlat d).map f).sum = ∑ p ∈ pairsLT k, f (d p.1 p.2) := by
  unfold triuFlat
  rw [Multiset.map_map]
  rfl

/-- Swapping two up-group electrons restricts to the corresponding
transposition on up-group coordinates. -/
theorem swap_upIdx {nup ndown : ℕ} {i j : Fin (nup + ndown)}
    (hi : (i : ℕ) < nup) (hj : (j : ℕ) < nup) (t : Fin nup) :
    Equiv.swap i j (@upIdx nup ndown t) =
      upIdx (Equiv.swap ⟨(i : ℕ), hi⟩ ⟨(j : ℕ), hj⟩ t) := by
  rcases eq_or_ne t ⟨(i : ℕ), hi⟩ with rfl | hti
  · have h1 : @upIdx nup ndown ⟨(i : ℕ), hi⟩ = i :=
      Fin.ext (by simp [upIdx])
    rw [h1, Equiv.swap_apply_left, Equiv.swap_apply_left]
    exact (Fin.ext (by simp [upIdx])).symm
  · rcases eq_or_ne t ⟨(j : ℕ), hj⟩ with rfl | htj
    · have h1 : @upIdx nup ndown ⟨(j : ℕ), hj⟩ = j :=
        Fin.ext (by simp [upIdx])
      rw [h1, Equiv.swap_apply_right, Equiv.swap_apply_right]
      exact (Fin.ext (by simp [upIdx])).symm
    · have h1 : @upIdx nup ndown t ≠ i := by
        intro h
        exact hti (Fin.ext (by
          have := congrArg Fin.val h
          simpa [upIdx] using this))
      have h2 : @upIdx nup ndown t ≠ j := by
        intro h
        exact htj (Fin.ext (by
          have := congrArg Fin.val h
          simpa [upIdx] using this))
      rw [Equiv.swap_apply_of_ne_of_ne h1 h2,
        Equiv.swap_apply_of_ne_of_ne hti htj]

/-- Swapping two up-group electrons fixes every down-group coordinate. -/
theorem swap_downIdx_fixed {nup ndown : ℕ} {i j : Fin (nup + ndown)}
    (hi : (i : ℕ) < nup) (hj : (j : ℕ) < nup) (t : Fin ndown) :
    Equiv.swap i j (@downIdx nup ndown t) = downIdx t := by
  have h1 : @downIdx nup ndown t ≠ i := by
    intro h
    have := congrArg Fin.val h
    simp [downIdx] at this
    omega
  have h2 : @downIdx nup ndown t ≠ j := by
    intro h
    have := congrArg Fin.val h
    simp [downIdx] at this
    omega
  exact Equiv.swap_apply_of_ne_of_ne h1 h2

/-- Swapping two down-group electrons restricts to the corresponding
transposition on down-group coordinates. -/
theorem swap_downIdx {nup ndown : ℕ} {i j : Fin (nup + ndown)}
    (hi : nup ≤ (i : ℕ)) (hj : nup ≤ (j : ℕ)) (t : Fin ndown) :
    Equiv.swap i j (@downIdx nup ndown t) =
      downIdx (Equiv.swap ⟨(i : ℕ) - nup, by omega⟩ ⟨(j : ℕ) - nup, by omega⟩ t) := by
  rcases eq_or_ne t ⟨(i : ℕ) - nup, by omega⟩ with rfl | hti
  · have h1 : @downIdx nup ndown ⟨(i : ℕ) - nup, by omega⟩ = i :=
      Fin.ext (by simp [downIdx]; omega)
    rw [h1, Equiv.swap_apply_left, Equiv.swap_apply_left]
    exact (Fin.ext (by simp [downIdx]; omega)).symm
  · rcases eq_or_ne t ⟨(j : ℕ) - nup, by omega⟩ with rfl | htj
    · have h1 : @downIdx nup ndown ⟨(j : ℕ) - nup, by omega⟩ = j :=
        Fin.ext (by simp [downIdx]; omega)
      rw [h1, Equiv.swap_apply_right, Equiv.swap_apply_right]
      exact (Fin.ext (by simp [downIdx]; omega)).symm
    · have h1 : @downIdx nup ndown t ≠ i := by
        intro h
        refine hti (Fin.ext ?_)
        have := congrArg Fin.val h
        simp [downIdx] at this ⊢
        omega
      have h2 : @downIdx nup ndown t ≠ j := by
        intro h
        refine htj (Fin.ext ?_)
        have := congrArg Fin.val h
        simp [downIdx] at this ⊢
        omega
      rw [Equiv.swap_apply_of_ne_of_ne h1 h2,
        Equiv.swap_apply_of_ne_of_ne hti htj]

/-- Swapping two down-group electrons fixes every up-group coordinate. -/
theorem swap_upIdx_fixed {nup ndown : ℕ} {i j : Fin (nup + ndown)}
    (hi : nup ≤ (i : ℕ)) (hj : nup ≤ (j : ℕ)) (t : Fin nup) :
    Equiv.swap i j (@upIdx nup ndown t) = upIdx t := by
  have h1 : @upIdx nup ndown t ≠ i := by
    intro h
    have := congrArg Fin.val h
    simp [upIdx] at this
    omega
  have h2 : @upIdx nup ndown t ≠ j := by
    intro h
    have := congrArg Fin.val h
    simp [upIdx] at this
    omega
  exact Equiv.swap_apply_of_ne_of_ne h1 h2

/-- Swapping two same-group electrons preserves every electron's spin
label. -/
theorem isUpSpin_swap {nup ndown : ℕ} {i j : Fin (nup + ndown)}
    (hgrp : (i : ℕ) < nup ↔ (j : ℕ) < nup) (t : Fin (nup + ndown)) :
    isUpSpin nup (Equiv.swap i j t) = isUpSpin nup t := by
  rcases eq_or_ne t i with rfl | hti
  · rw [Equiv.swap_apply_left]
    exact decide_eq_decide.mpr hgrp.symm
  · rcases eq_or_ne t j with rfl | htj
    · rw [Equiv.swap_apply_right]
      exact decide_eq_decide.mpr hgrp
    · rw [Equiv.swap_apply_of_ne_of_ne hti htj]

/-- Modelled equivariance of the embedding network (spec §4.3): relabelling
the particles by a spin-preserving permutation relabels the per-particle
embeddings the same way. -/
theorem ElectronicSchnet.run_equivariant {M : ℕ} {B E : Type} [AddCommMonoid E]
    (s : ElectronicSchnet M B E) {n : ℕ} (isUp : Fin n → Bool)
    (fb : Fin n → Fin n ⊕ Fin M → B) (σ : Equiv.Perm (Fin n))
    (hσ : ∀ i, isUp (σ i) = isUp i) (t : ℕ) (i : Fin n) :
    s.run isUp (fun a k => fb (σ a) (Sum.map σ id k)) t i =
      s.run isUp fb t (σ i) := by
  induction t generalizing i with
  | zero =>
      unfold ElectronicSchnet.run
      rw [hσ]
  | succ t ih =>
      unfold ElectronicSchnet.run
      congr 1
      · exact ih i
      · refine Fintype.sum_equiv σ _ _ fun j => ?_
        rcases eq_or_ne j i with rfl | hne
        · simp
        · have : ¬σ j = σ i := fun h => hne (σ.injective h)
          simp only [hne, this, if_false]
          rw [ih j, hσ j, hσ i]
          rfl

section Invariance

variable {nup ndown M : ℕ} {B E L : Type} [AddCommMonoid E]

/-- Equation lemma: the up factor when the module is present. -/
theorem HanNet.antiUpF_some (m : HanNet nup ndown M B E L)
    (rs : Fin (nup + ndown) → Point) (a : LaughlinAnsatz L)
    (ha : m.antiUp = some a) :
    m.antiUpF rs =
      a.forward (fun i => rs (upIdx i)) fun i j =>
        distsElec rs (upIdx i) (upIdx j) := by
  unfold HanNet.antiUpF
  rw [ha]

/-- Equation lemma: the up factor when the module is absent. -/
theorem HanNet.antiUpF_none (m : HanNet nup ndown M B E L)
    (rs : Fin (nup + ndown) → Point) (ha : m.antiUp = none) :
    m.antiUpF rs = 1 := by
  unfold HanNet.antiUpF
  rw [ha]

/-- Equation lemma: the down factor when the module is present. -/
theorem HanNet.antiDownF_some (m : HanNet nup ndown M B E L)
    (rs : Fin (nup + ndown) → Point) (a : LaughlinAnsatz L)
    (ha : m.antiDown = some a) :
    m.antiDownF rs =
      a.forward (fun i => rs (downIdx i)) fun i j =>
        distsElec rs (downIdx i) (downIdx j) := by
  unfold HanNet.antiDownF
  rw [ha]

/-- Equation lemma: the down factor when the module is absent. -/
theorem HanNet.antiDownF_none (m : HanNet nup ndown M B E L)
    (rs : Fin (nup + ndown) → Point) (ha : m.antiDown = none) :
    m.antiDownF rs = 1 := by
  unfold HanNet.antiDownF
  rw [ha]

/-- Equation lemma: the same-spin factor when the module is configured. -/
theorem HanNet.asympSameF_some (m : HanNet nup ndown M B E L)
    (rs : Fin (nup + ndown) → Point) (c : ℝ) (hc : m.asympSame = some c) :
    m.asympSameF rs =
      ElectronicAsymptotic c
        (triuFlat (fun i j : Fin nup => distsElec rs (upIdx i) (upIdx j)) +
          triuFlat fun i j : Fin ndown =>
            distsElec rs (downIdx i) (downIdx j)) := by
  unfold HanNet.asympSameF
  rw [hc]

/-- Equation lemma: the same-spin factor when the module is absent. -/
theorem HanNet.asympSameF_none (m : HanNet nup ndown M B E L)
    (rs : Fin (nup + ndown) → Point) (hc : m.asympSame = none) :
    m.asympSameF rs = 1 := by
  unfold HanNet.asympSameF
  rw [hc]

/-- Relabelling the electrons by a spin-preserving permutation relabels the
embedding-network outputs the same way. -/
theorem HanNet.xs_comp (m : HanNet nup ndown M B E L)
    (rs : Fin (nup + ndown) → Point) (σ : Equiv.Perm (Fin (nup + ndown)))
    (hσ : ∀ t, isUpSpin nup (σ t) = isUpSpin nup t) (t : Fin (nup + ndown)) :
    m.xs (fun u => rs (σ u)) t = m.xs rs (σ t) := by
  unfold HanNet.xs ElectronicSchnet.out
  have hfb : (fun i k => m.distBasis (m.distsAll (fun u => rs (σ u)) i k)) =
      fun i k =>
        (fun a c => m.distBasis (m.distsAll rs a c)) (σ i) (Sum.map σ id k) := by
    funext i k
    cases k with
    | inl j => rfl
    | inr ν => rfl
  rw [hfb]
  exact m.schnet.run_equivariant (isUpSpin nup)
    (fun a c => m.distBasis (m.distsAll rs a c)) σ hσ m.schnet.nInteractions t

/-- The Jastrow log-amplitude is invariant under spin-preserving
permutations of the electrons. -/
theorem HanNet.jastrow_comp (m : HanNet nup ndown M B E L)
    (rs : Fin (nup + ndown) → Point) (σ : Equiv.Perm (Fin (nup + ndown)))
    (hσ : ∀ t, isUpSpin nup (σ t) = isUpSpin nup t) :
    m.jastrow (fun u => rs (σ u)) = m.jastrow rs := by
  unfold HanNet.jastrow
  rw [Finset.sum_congr rfl fun i _ => congrArg m.orbital (m.xs_comp rs σ hσ i)]
  exact Equiv.sum_comp σ fun i => m.orbital (m.xs rs i)

/-- The nuclear asymptotic factor is invariant under any permutation of the
electrons. -/
theorem HanNet.asympNucF_comp (m : HanNet nup ndown M B E L)
    (rs : Fin (nup + ndown) → Point) (σ : Equiv.Perm (Fin (nup + ndown))) :
    m.asympNucF (fun u => rs (σ u)) = m.asympNucF rs := by
  unfold HanNet.asympNucF NuclearAsymptotic
  have key : (∑ i, ∑ ν, m.distsNuc (fun u => rs (σ u)) i ν /
        (1 + m.charges ν * m.distsNuc (fun u => rs (σ u)) i ν)) =
      ∑ i, ∑ ν, m.distsNuc rs i ν / (1 + m.charges ν * m.distsNuc rs i ν) :=
    Equiv.sum_comp σ fun i =>
      ∑ ν, m.distsNuc rs i ν / (1 + m.charges ν * m.distsNuc rs i ν)
  rw [key]

/-- The same-spin asymptotic factor is invariant under any permutation of the
electrons that restricts to a sum-preserving permutation on each spin
group. -/
theorem HanNet.asympSameF_comp (m : HanNet nup ndown M B E L)
    (rs : Fin (nup + ndown) → Point) (σ : Equiv.Perm (Fin (nup + ndown)))
    (τ : Equiv.Perm (Fin nup)) (ρ : Equiv.Perm (Fin ndown))
    (hup : ∀ t, σ (upIdx t) = upIdx (τ t))
    (hdown : ∀ t, σ (downIdx t) = downIdx (ρ t))
    (hτ : SumInvar τ) (hρ : SumInvar ρ) :
    m.asympSameF (fun u => rs (σ u)) = m.asympSameF rs := by
  cases h : m.asympSame with
  | none => rw [m.asympSameF_none _ h, m.asympSameF_none _ h]
  | some c =>
      rw [m.asympSameF_some _ c h, m.asympSameF_some _ c h]
      unfold ElectronicAsymptotic
      congr 2
      rw [Multiset.map_add, Multiset.sum_add, Multiset.map_add, Multiset.sum_add]
      congr 1
      · rw [triuFlat_map_sum, triuFlat_map_sum]
        have step : ∀ p ∈ pairsLT nup,
            c / (1 + distsElec (fun u => rs (σ u)) (upIdx p.1) (upIdx p.2)) =
              (fun s t => c / (1 + eucDist (rs (upIdx s)) (rs (upIdx t))))
                (τ p.1) (τ p.2) := by
          intro p _
          show c / (1 + eucDist (rs (σ (upIdx p.1))) (rs (σ (upIdx p.2)))) = _
          rw [hup p.1, hup p.2]
        rw [Finset.sum_congr rfl step]
        exact hτ (fun s t => c / (1 + eucDist (rs (upIdx s)) (rs (upIdx t))))
          fun s t => by
            show c / (1 + eucDist (rs (upIdx s)) (rs (upIdx t))) =
              c / (1 + eucDist (rs (upIdx t)) (rs (upIdx s)))
            rw [eucDist_symm (rs (upIdx s)) (rs (upIdx t))]
      · rw [triuFlat_map_sum, triuFlat_map_sum]
        have step : ∀ p ∈ pairsLT ndown,
            c / (1 + distsElec (fun u => rs (σ u)) (downIdx p.1) (downIdx p.2)) =
              (fun s t => c / (1 + eucDist (rs (downIdx s)) (rs (downIdx t))))
                (ρ p.1) (ρ p.2) := by
          intro p _
          show c / (1 + eucDist (rs (σ (downIdx p.1))) (rs (σ (downIdx p.2)))) = _
          rw [hdown p.1, hdown p.2]
        rw [Finset.sum_congr rfl step]
        exact hρ (fun s t => c / (1 + eucDist (rs (downIdx s)) (rs (downIdx t))))
          fun s t => by
            show c / (1 + eucDist (rs (downIdx s)) (rs (downIdx t))) =
              c / (1 + eucDist (rs (downIdx t)) (rs (downIdx s)))
            rw [eucDist_symm (rs (downIdx s)) (rs (downIdx t))]

/-- The up-group antisymmetrisation factor is unchanged by an electron
permutation that fixes every up-group coordinate. -/
theorem HanNet.antiUpF_comp_id (m : HanNet nup ndown M B E L)
    (rs : Fin (nup + ndown) → Point) (σ : Equiv.Perm (Fin (nup + ndown)))
    (hup : ∀ t, σ (upIdx t) = upIdx t) :
    m.antiUpF (fun u => rs (σ u)) = m.antiUpF rs := by
  unfold HanNet.antiUpF
  cases m.antiUp with
  | none => rfl
  | some a =>
      have hx : (fun i => rs (σ (upIdx i))) = fun i : Fin nup => rs (upIdx i) :=
        funext fun i => by rw [hup]
      show a.forward (fun i => rs (σ (upIdx i)))
          (fun i j => eucDist (rs (σ (upIdx i))) (rs (σ (upIdx j)))) = _
      rw [show (fun i j : Fin nup =>
          eucDist (rs (σ (upIdx i))) (rs (σ (upIdx j)))) =
          fun i j : Fin nup => eucDist (rs (upIdx i)) (rs (upIdx j)) from
        funext fun i => funext fun j => by rw [hup, hup], hx]
      rfl

/-- The down-group antisymmetrisation factor is unchanged by an electron
permutation that fixes every down-group coordinate. -/
theorem HanNet.antiDownF_comp_id (m : HanNet nup ndown M B E L)
    (rs : Fin (nup + ndown) → Point) (σ : Equiv.Perm (Fin (nup + ndown)))
    (hdown : ∀ t, σ (downIdx t) = downIdx t) :
    m.antiDownF (fun u => rs (σ u)) = m.antiDownF rs := by
  unfold HanNet.antiDownF
  cases m.antiDown with
  | none => rfl
  | some a =>
      have hx : (fun i => rs (σ (downIdx i))) = fun i : Fin ndown => rs (downIdx i) :=
        funext fun i => by rw [hdown]
      show a.forward (fun i => rs (σ (downIdx i)))
          (fun i j => eucDist (rs (σ (downIdx i))) (rs (σ (downIdx j)))) = _
      rw [show (fun i j : Fin ndown =>
          eucDist (rs (σ (downIdx i))) (rs (σ (downIdx j)))) =
          fun i j : Fin ndown => eucDist (rs (downIdx i)) (rs (downIdx j)) from
        funext fun i => funext fun j => by rw [hdown, hdown], hx]
      rfl

/-- When the up-group antisymmetrisation module is present, an electron
permutation that restricts to a transposition of two up-group members negates
the up factor. -/
theorem HanNet.antiUpF_comp_swap (m : HanNet nup ndown M B E L)
    (rs : Fin (nup + ndown) → Point) {a : LaughlinAnsatz L}
    (ha : m.antiUp = some a) (σ : Equiv.Perm (Fin (nup + ndown)))
    {p q : Fin nup} (hpq : p ≠ q)
    (hup : ∀ t, σ (upIdx t) = upIdx (Equiv.swap p q t)) :
    m.antiUpF (fun u => rs (σ u)) = -m.antiUpF rs := by
  calc m.antiUpF (fun u => rs (σ u))
      = a.forward (fun t => rs (upIdx (Equiv.swap p q t))) fun s t =>
          distsElec rs (upIdx (Equiv.swap p q s)) (upIdx (Equiv.swap p q t)) := by
        rw [m.antiUpF_some _ a ha]
        congr 1
        · exact funext fun i => by
            show rs (σ (upIdx i)) = rs (upIdx (Equiv.swap p q i))
            rw [hup]
        · exact funext fun i => funext fun j => by
            show eucDist (rs (σ (upIdx i))) (rs (σ (upIdx j))) = _
            rw [hup i, hup j]
            rfl
    _ = -a.forward (fun u : Fin nup => rs (upIdx u)) (fun s t : Fin nup =>
          distsElec rs (upIdx s) (upIdx t)) :=
        a.forward_swap (fun u : Fin nup => rs (upIdx u))
          (fun s t : Fin nup => distsElec rs (upIdx s) (upIdx t)) hpq
    _ = -m.antiUpF rs := by rw [m.antiUpF_some rs a ha]

/-- When the down-group antisymmetrisation module is present, an electron
permutation that restricts to a transposition of two down-group members
negates the down factor. -/
theorem HanNet.antiDownF_comp_swap (m : HanNet nup ndown M B E L)
    (rs : Fin (nup + ndown) → Point) {a : LaughlinAnsatz L}
    (ha : m.antiDown = some a) (σ : Equiv.Perm (Fin (nup + ndown)))
    {p q : Fin ndown} (hpq : p ≠ q)
    (hdown : ∀ t, σ (downIdx t) = downIdx (Equiv.swap p q t)) :
    m.antiDownF (fun u => rs (σ u)) = -m.antiDownF rs := by
  calc m.antiDownF (fun u => rs (σ u))
      = a.forward (fun t => rs (downIdx (Equiv.swap p q t))) fun s t =>
          distsElec rs (downIdx (Equiv.swap p q s)) (downIdx (Equiv.swap p q t)) := by
        rw [m.antiDownF_some _ a ha]
        congr 1
        · exact funext fun i => by
            show rs (σ (downIdx i)) = rs (downIdx (Equiv.swap p q i))
            rw [hdown]
        · exact funext fun i => funext fun j => by
            show eucDist (rs (σ (downIdx i))) (rs (σ (downIdx j))) = _
            rw [hdown i, hdown j]
            rfl
    _ = -a.forward (fun u : Fin ndown => rs (downIdx u)) (fun s t : Fin ndown =>
          distsElec rs (downIdx s) (downIdx t)) :=
        a.forward_swap (fun u : Fin ndown => rs (downIdx u))
          (fun s t : Fin ndown => distsElec rs (downIdx s) (downIdx t)) hpq
    _ = -m.antiDownF rs := by rw [m.antiDownF_some rs a ha]

end Invariance

section InitLemmas

variable {nup ndown M : ℕ} {B E L : Type}

/-- The constructed up-group antisymmetrisation module when the up group has
more than one particle. -/
theorem HanNet.init_antiUp_some (cfg : Config nup ndown M B E L)
    (h : 1 < nup) :
    (HanNet.init cfg).antiUp =
      some ⟨cfg.pairFactoryUsed 7 cfg.latentDim, cfg.oddNet⟩ := by
  show (if 1 < nup then
      some (⟨cfg.pairFactoryUsed 7 cfg.latentDim, cfg.oddNet⟩ : LaughlinAnsatz L)
    else none) = _
  rw [if_pos h]

/-- No up-group antisymmetrisation module is constructed for an up group of
fewer than two particles. -/
theorem HanNet.init_antiUp_none (cfg : Config nup ndown M B E L)
    (h : nup < 2) : (HanNet.init cfg).antiUp = none := by
  show (if 1 < nup then
      some (⟨cfg.pairFactoryUsed 7 cfg.latentDim, cfg.oddNet⟩ : LaughlinAnsatz L)
    else none) = _
  rw [if_neg (by omega)]

/-- The constructed down-group antisymmetrisation module when the down group
has more than one particle. -/
theorem HanNet.init_antiDown_some (cfg : Config nup ndown M B E L)
    (h : 1 < ndown) :
    (HanNet.init cfg).antiDown =
      some ⟨cfg.pairFactoryUsed 7 cfg.latentDim, cfg.oddNet⟩ := by
  show (if 1 < ndown then
      some (⟨cfg.pairFactoryUsed 7 cfg.latentDim, cfg.oddNet⟩ : LaughlinAnsatz L)
    else none) = _
  rw [if_pos h]

/-- No down-group antisymmetrisation module is constructed for a down group of
fewer than two particles. -/
theorem HanNet.init_antiDown_none (cfg : Config nup ndown M B E L)
    (h : ndown < 2) : (HanNet.init cfg).antiDown = none := by
  show (if 1 < ndown then
      some (⟨cfg.pairFactoryUsed 7 cfg.latentDim, cfg.oddNet⟩ : LaughlinAnsatz L)
    else none) = _
  rw [if_neg (by omega)]

end InitLemmas

section ForwardLemmas

variable {nup ndown M : ℕ} {B E L : Type} [AddCommMonoid E]

/-- When the opposite-spin cusp module is absent, `forward` returns the
product of the two antisymmetrisation factors, the exponentiated Jastrow
factor and the asymptotic factors (the opposite-spin one being `1.0`). -/
theorem HanNet.forward_of_asympAnti_none (m : HanNet nup ndown M B E L)
    (rs : Fin (nup + ndown) → Point) (h : m.asympAnti = none) :
    m.forward rs =
      Except.ok (m.antiUpF rs * m.antiDownF rs * Real.exp (m.jastrow rs) *
        (m.asympNucF rs * m.asympSameF rs * 1)) := by
  unfold HanNet.forward HanNet.forwardD HanNet.asympAntiF
  rw [h]

/-- When the opposite-spin cusp module is configured, `forward` raises the
`AttributeError` caused by the misspelt `flattten` call (source line 135). -/
theorem HanNet.forward_of_asympAnti_some (m : HanNet nup ndown M B E L)
    (rs : Fin (nup + ndown) → Point) (c : ℝ) (h : m.asympAnti = some c) :
    m.forward rs = Except.error () := by
  unfold HanNet.forward HanNet.forwardD HanNet.asympAntiF
  rw [h]

end ForwardLemmas

section Claims

variable {nup ndown M : ℕ} {B E L : Type} [AddCommMonoid E]

/-- C1: for every configuration and every pair of distinct indices lying in
the same spin group, the amplitude returned by `HanNet.forward` on the
configuration with the two particles swapped is the negation of the amplitude
on the original configuration (and when `forward` raises, it raises on both
configurations). -/
theorem hannet_forward_antisymmetry (cfg : Config nup ndown M B E L)
    (rs : Fin (nup + ndown) → Point) (i j : Fin (nup + ndown)) (hne : i ≠ j)
    (hgrp : (i : ℕ) < nup ↔ (j : ℕ) < nup) :
    (HanNet.init cfg).forward (fun t => rs (Equiv.swap i j t)) =
      ((HanNet.init cfg).forward rs).map fun x => -x := by
  set m := HanNet.init cfg with hm
  have hvne : (i : ℕ) ≠ (j : ℕ) := fun h => hne (Fin.ext h)
  have hσspin : ∀ t, isUpSpin nup (Equiv.swap i j t) = isUpSpin nup t :=
    isUpSpin_swap hgrp
  cases hA : m.asympAnti with
  | some c =>
      rw [m.forward_of_asympAnti_some _ c hA, m.forward_of_asympAnti_some rs c hA]
      rfl
  | none =>
      rw [m.forward_of_asympAnti_none _ hA, m.forward_of_asympAnti_none rs hA]
      have hjas := m.jastrow_comp rs (Equiv.swap i j) hσspin
      have hnuc := m.asympNucF_comp rs (Equiv.swap i j)
      by_cases hi : (i : ℕ) < nup
      · have hj : (j : ℕ) < nup := hgrp.mp hi
        have hij' : (⟨(i : ℕ), hi⟩ : Fin nup) ≠ ⟨(j : ℕ), hj⟩ := by
          intro h
          simp only [Fin.mk.injEq] at h
          exact hvne h
        have hup := fun t : Fin nup => swap_upIdx hi hj t
        have hdown : ∀ t : Fin ndown,
            Equiv.swap i j (downIdx t) = downIdx ((1 : Equiv.Perm (Fin ndown)) t) :=
          fun t => swap_downIdx_fixed hi hj t
        have hsame := m.asympSameF_comp rs (Equiv.swap i j)
          (Equiv.swap ⟨(i : ℕ), hi⟩ ⟨(j : ℕ), hj⟩) 1 hup hdown
          (sumInvar_swap hij') sumInvar_one
        have hnup2 : 1 < nup := by omega
        have hUp : m.antiUp =
            some ⟨cfg.pairFactoryUsed 7 cfg.latentDim, cfg.oddNet⟩ :=
          HanNet.init_antiUp_some cfg hnup2
        have hAup := m.antiUpF_comp_swap rs hUp (Equiv.swap i j) hij' hup
        have hAdn := m.antiDownF_comp_id rs (Equiv.swap i j) fun t =>
          swap_downIdx_fixed hi hj t
        rw [hjas, hnuc, hsame, hAup, hAdn]
        simp only [Except.map]
        congr 1
        ring
      · have hj : ¬(j : ℕ) < nup := fun h => hi (hgrp.mpr h)
        have hi' : nup ≤ (i : ℕ) := by omega
        have hj' : nup ≤ (j : ℕ) := by omega
        have hiL : (i : ℕ) - nup < ndown := by
          have := i.isLt
          omega
        have hjL : (j : ℕ) - nup < ndown := by
          have := j.isLt
          omega
        have hij' : (⟨(i : ℕ) - nup, hiL⟩ : Fin ndown) ≠ ⟨(j : ℕ) - nup, hjL⟩ := by
          intro h
          simp only [Fin.mk.injEq] at h
          exact hvne (by omega)
        have hdown : ∀ t : Fin ndown, Equiv.swap i j (downIdx t) =
            downIdx (Equiv.swap ⟨(i : ℕ) - nup, hiL⟩ ⟨(j : ℕ) - nup, hjL⟩ t) :=
          fun t => swap_downIdx hi' hj' t
        have hup : ∀ t : Fin nup,
            Equiv.swap i j (upIdx t) = upIdx ((1 : Equiv.Perm (Fin nup)) t) :=
          fun t => swap_upIdx_fixed hi' hj' t
        have hsame := m.asympSameF_comp rs (Equiv.swap i j) 1
          (Equiv.swap ⟨(i : ℕ) - nup, hiL⟩ ⟨(j : ℕ) - nup, hjL⟩) hup hdown
          sumInvar_one (sumInvar_swap hij')
        have hndown2 : 1 < ndown := by omega
        have hDown : m.antiDown =
            some ⟨cfg.pairFactoryUsed 7 cfg.latentDim, cfg.oddNet⟩ :=
          HanNet.init_antiDown_some cfg hndown2
        have hAdn := m.antiDownF_comp_swap rs hDown (Equiv.swap i j) hij' hdown
        have hAup := m.antiUpF_comp_id rs (Equiv.swap i j) fun t =>
          swap_upIdx_fixed hi' hj' t
        rw [hjas, hnuc, hsame, hAup, hAdn]
        simp only [Except.map]
        congr 1
        ring

/-- C1 witness: the antisymmetry theorem instantiated on a concrete
two-electron model and configuration. -/
theorem hannet_forward_antisymmetry_witness :
    (HanNet.init (trivialConfig 2 0 1 none none)).forward
        (fun t => constRs (2 + 0) (Equiv.swap 0 1 t)) =
      ((HanNet.init (trivialConfig 2 0 1 none none)).forward
        (constRs (2 + 0))).map fun x => -x :=
  hannet_forward_antisymmetry (trivialConfig 2 0 1 none none) (constRs (2 + 0))
    0 1 (by decide) (by decide)

/-- Projection: the same-spin cusp module of a constructed model is exactly
the configured coefficient. -/
theorem HanNet.init_asympSame (cfg : Config nup ndown M B E L) :
    (HanNet.init cfg).asympSame = cfg.cuspSame := rfl

/-- Projection: the opposite-spin cusp module of a constructed model is
exactly the configured coefficient. -/
theorem HanNet.init_asympAnti (cfg : Config nup ndown M B E L) :
    (HanNet.init cfg).asympAnti = cfg.cuspAnti := rfl

/-- Projection: the ionisation potential of a constructed model. -/
theorem HanNet.init_ionPot (cfg : Config nup ndown M B E L) :
    (HanNet.init cfg).ionPot = cfg.ionPot := rfl

/-- C3: whenever two distinct same-spin particles sit at the identical
coordinate (and the opposite-spin cusp module is unconfigured, so that
`forward` returns at all), the returned amplitude is exactly zero. -/
theorem hannet_forward_coincidence_zero (cfg : Config nup ndown M B E L)
    (rs : Fin (nup + ndown) → Point) (i j : Fin (nup + ndown)) (hne : i ≠ j)
    (hgrp : (i : ℕ) < nup ↔ (j : ℕ) < nup) (hx : rs i = rs j)
    (hA : cfg.cuspAnti = none) :
    (HanNet.init cfg).forward rs = Except.ok 0 := by
  set m := HanNet.init cfg with hm
  have hAm : m.asympAnti = none := hA
  rw [m.forward_of_asympAnti_none rs hAm]
  have hvne : (i : ℕ) ≠ (j : ℕ) := fun h => hne (Fin.ext h)
  by_cases hi : (i : ℕ) < nup
  · have hj : (j : ℕ) < nup := hgrp.mp hi
    have hnup2 : 1 < nup := by omega
    have hUp : m.antiUp =
        some ⟨cfg.pairFactoryUsed 7 cfg.latentDim, cfg.oddNet⟩ :=
      HanNet.init_antiUp_some cfg hnup2
    have hupi : @upIdx nup ndown ⟨(i : ℕ), hi⟩ = i :=
      Fin.ext (by simp [upIdx])
    have hupj : @upIdx nup ndown ⟨(j : ℕ), hj⟩ = j :=
      Fin.ext (by simp [upIdx])
    have hij' : (⟨(i : ℕ), hi⟩ : Fin nup) ≠ ⟨(j : ℕ), hj⟩ := by
      intro h
      simp only [Fin.mk.injEq] at h
      exact hvne h
    have hz : m.antiUpF rs = 0 := by
      rw [m.antiUpF_some rs _ hUp]
      refine LaughlinAnsatz.forward_eq_zero _ _ _ hij' ?_ ?_
      · show rs (upIdx ⟨(i : ℕ), hi⟩) = rs (upIdx ⟨(j : ℕ), hj⟩)
        rw [hupi, hupj, hx]
      · show eucDist (rs (upIdx ⟨(i : ℕ), hi⟩)) (rs (upIdx ⟨(j : ℕ), hj⟩)) =
          eucDist (rs (upIdx ⟨(j : ℕ), hj⟩)) (rs (upIdx ⟨(i : ℕ), hi⟩))
        exact eucDist_symm _ _
    rw [hz]
    congr 1
    ring
  · have hj : ¬(j : ℕ) < nup := fun h => hi (hgrp.mpr h)
    have hi' : nup ≤ (i : ℕ) := by omega
    have hj' : nup ≤ (j : ℕ) := by omega
    have hiL : (i : ℕ) - nup < ndown := by
      have := i.isLt
      omega
    have hjL : (j : ℕ) - nup < ndown := by
      have := j.isLt
      omega
    have hndown2 : 1 < ndown := by omega
    have hDown : m.antiDown =
        some ⟨cfg.pairFactoryUsed 7 cfg.latentDim, cfg.oddNet⟩ :=
      HanNet.init_antiDown_some cfg hndown2
    have hdowni : @downIdx nup ndown ⟨(i : ℕ) - nup, hiL⟩ = i :=
      Fin.ext (by simp [downIdx]; omega)
    have hdownj : @downIdx nup ndown ⟨(j : ℕ) - nup, hjL⟩ = j :=
      Fin.ext (by simp [downIdx]; omega)
    have hij' : (⟨(i : ℕ) - nup, hiL⟩ : Fin ndown) ≠ ⟨(j : ℕ) - nup, hjL⟩ := by
      intro h
      simp only [Fin.mk.injEq] at h
      exact hvne (by omega)
    have hz : m.antiDownF rs = 0 := by
      rw [m.antiDownF_some rs _ hDown]
      refine LaughlinAnsatz.forward_eq_zero _ _ _ hij' ?_ ?_
      · show rs (downIdx ⟨(i : ℕ) - nup, hiL⟩) = rs (downIdx ⟨(j : ℕ) - nup, hjL⟩)
        rw [hdowni, hdownj, hx]
      · show eucDist (rs (downIdx ⟨(i : ℕ) - nup, hiL⟩))
            (rs (downIdx ⟨(j : ℕ) - nup, hjL⟩)) =
          eucDist (rs (downIdx ⟨(j : ℕ) - nup, hjL⟩))
            (rs (downIdx ⟨(i : ℕ) - nup, hiL⟩))
        exact eucDist_symm _ _
    rw [hz]
    congr 1
    ring

/-- C3 witness: coincidence zero on a concrete two-up-electron model with
both electrons at the origin. -/
theorem hannet_forward_coincidence_zero_witness :
    (HanNet.init (trivialConfig 2 0 1 none none)).forward (constRs (2 + 0)) =
      Except.ok 0 :=
  hannet_forward_coincidence_zero (trivialConfig 2 0 1 none none)
    (constRs (2 + 0)) 0 1 (by decide) (by decide) rfl rfl

/-- C2: whenever `forward` returns at all — exactly when the opposite-spin
cusp module is unconfigured — the returned amplitude is literally the product
`anti_up * anti_down * exp(jastrow) * (asymp_nuc * asymp_same * asymp_anti)`
with `asymp_anti = 1.0`; and on a model with the opposite-spin cusp module
configured, `forward` instead raises the `AttributeError` caused by the
misspelt `flattten` (source line 135), so the claimed product is never
returned for such models. -/
theorem hannet_forward_product_formula :
    (∀ (nup ndown M : ℕ) (B E L : Type) [AddCommMonoid E]
        (m : HanNet nup ndown M B E L) (rs : Fin (nup + ndown) → Point),
        m.asympAnti = none →
        m.forward rs = Except.ok (m.antiUpF rs * m.antiDownF rs *
          Real.exp (m.jastrow rs) * (m.asympNucF rs * m.asympSameF rs * 1))) ∧
    (HanNet.init (trivialConfig 1 1 1 none (some 1))).forward
        (constRs (1 + 1)) = Except.error () := by
  constructor
  · intro nup ndown M B E L _inst m rs h
    exact m.forward_of_asympAnti_none rs h
  · exact HanNet.forward_of_asympAnti_some _ _ 1 rfl

/-- C2 witness: the product formula instantiated on a concrete model. -/
theorem hannet_forward_product_formula_witness :
    (HanNet.init (trivialConfig 2 0 1 none none)).forward (constRs (2 + 0)) =
      Except.ok ((HanNet.init (trivialConfig 2 0 1 none none)).antiUpF
          (constRs (2 + 0)) *
        (HanNet.init (trivialConfig 2 0 1 none none)).antiDownF
          (constRs (2 + 0)) *
        Real.exp ((HanNet.init (trivialConfig 2 0 1 none none)).jastrow
          (constRs (2 + 0))) *
        ((HanNet.init (trivialConfig 2 0 1 none none)).asympNucF
            (constRs (2 + 0)) *
          (HanNet.init (trivialConfig 2 0 1 none none)).asympSameF
            (constRs (2 + 0)) * 1)) :=
  hannet_forward_product_formula.1 2 0 1 Unit ℝ Unit
    (HanNet.init (trivialConfig 2 0 1 none none)) (constRs (2 + 0)) rfl

/-- C4: a spin group with fewer than 2 particles gets no antisymmetrisation
module (`None`), its factor in `forward` is exactly `1.0`, and with both
groups trivial (e.g. `n_up = n_down = 1`) `forward` reduces to
`1 * 1 * exp(jastrow) * asymp`. -/
theorem hannet_anti_absent_factor_one (cfg : Config nup ndown M B E L)
    (rs : Fin (nup + ndown) → Point) :
    (nup < 2 → (HanNet.init cfg).antiUp = none ∧
      (HanNet.init cfg).antiUpF rs = 1) ∧
    (ndown < 2 → (HanNet.init cfg).antiDown = none ∧
      (HanNet.init cfg).antiDownF rs = 1) ∧
    (nup < 2 → ndown < 2 → cfg.cuspAnti = none →
      (HanNet.init cfg).forward rs = Except.ok (1 * 1 *
        Real.exp ((HanNet.init cfg).jastrow rs) *
        ((HanNet.init cfg).asympNucF rs * (HanNet.init cfg).asympSameF rs * 1))) := by
  refine ⟨fun h => ?_, fun h => ?_, fun hu hd hA => ?_⟩
  · have h1 := HanNet.init_antiUp_none cfg h
    exact ⟨h1, (HanNet.init cfg).antiUpF_none rs h1⟩
  · have h1 := HanNet.init_antiDown_none cfg h
    exact ⟨h1, (HanNet.init cfg).antiDownF_none rs h1⟩
  · have hAm : (HanNet.init cfg).asympAnti = none := hA
    rw [(HanNet.init cfg).forward_of_asympAnti_none rs hAm,
      (HanNet.init cfg).antiUpF_none rs (HanNet.init_antiUp_none cfg hu),
      (HanNet.init cfg).antiDownF_none rs (HanNet.init_antiDown_none cfg hd)]

/-- C4 witness: both modules absent on a concrete `n_up = n_down = 1`
model. -/
theorem hannet_anti_absent_factor_one_witness :
    ((1 : ℕ) < 2 → (HanNet.init (trivialConfig 1 1 1 none none)).antiUp = none ∧
      (HanNet.init (trivialConfig 1 1 1 none none)).antiUpF (constRs (1 + 1)) = 1) ∧
    ((1 : ℕ) < 2 →
      (HanNet.init (trivialConfig 1 1 1 none none)).antiDown = none ∧
      (HanNet.init (trivialConfig 1 1 1 none none)).antiDownF (constRs (1 + 1)) = 1) ∧
    ((1 : ℕ) < 2 → (1 : ℕ) < 2 →
      (trivialConfig 1 1 1 none none).cuspAnti = none →
      (HanNet.init (trivialConfig 1 1 1 none none)).forward (constRs (1 + 1)) =
        Except.ok (1 * 1 *
          Real.exp ((HanNet.init (trivialConfig 1 1 1 none none)).jastrow
            (constRs (1 + 1))) *
          ((HanNet.init (trivialConfig 1 1 1 none none)).asympNucF
              (constRs (1 + 1)) *
            (HanNet.init (trivialConfig 1 1 1 none none)).asympSameF
              (constRs (1 + 1)) * 1))) :=
  hannet_anti_absent_factor_one (trivialConfig 1 1 1 none none) (constRs (1 + 1))

/-- C5: leaving a cusp coefficient unconfigured is not an error: the
corresponding `ElectronicAsymptotic` module is absent and its factor in
`forward` is exactly `1.0` (for the opposite-spin module, the factor
computation succeeds with value `1.0`). -/
theorem hannet_cusp_unconfigured (cfg : Config nup ndown M B E L)
    (rs : Fin (nup + ndown) → Point) :
    (cfg.cuspSame = none → (HanNet.init cfg).asympSame = none ∧
      (HanNet.init cfg).asympSameF rs = 1) ∧
    (cfg.cuspAnti = none → (HanNet.init cfg).asympAnti = none ∧
      (HanNet.init cfg).asympAntiF rs = Except.ok 1) := by
  refine ⟨fun h => ?_, fun h => ?_⟩
  · have h1 : (HanNet.init cfg).asympSame = none := h
    exact ⟨h1, (HanNet.init cfg).asympSameF_none rs h1⟩
  · have h1 : (HanNet.init cfg).asympAnti = none := h
    refine ⟨h1, ?_⟩
    unfold HanNet.asympAntiF
    rw [h1]

/-- C5 witness: both cusp modules unconfigured on a concrete model. -/
theorem hannet_cusp_unconfigured_witness :
    ((trivialConfig 1 1 1 none none).cuspSame = none →
      (HanNet.init (trivialConfig 1 1 1 none none)).asympSame = none ∧
      (HanNet.init (trivialConfig 1 1 1 none none)).asympSameF
        (constRs (1 + 1)) = 1) ∧
    ((trivialConfig 1 1 1 none none).cuspAnti = none →
      (HanNet.init (trivialConfig 1 1 1 none none)).asympAnti = none ∧
      (HanNet.init (trivialConfig 1 1 1 none none)).asympAntiF
        (constRs (1 + 1)) = Except.ok 1) :=
  hannet_cusp_unconfigured (trivialConfig 1 1 1 none none) (constRs (1 + 1))

/-- C6: with the opposite-spin cusp coefficient configured, `forward` never
completes: the misspelt tensor method `flattten` (for `flatten`, source line
135) raises an `AttributeError` while computing the opposite-spin asymptotic
factor from the up-versus-down distance block. -/
theorem hannet_cusp_anti_raises {nup ndown M : ℕ} {B E L : Type}
    [AddCommMonoid E] (cfg : Config nup ndown M B E L) (c : ℝ)
    (rs : Fin (nup + ndown) → Point) (h : cfg.cuspAnti = some c) :
    (HanNet.init cfg).forward rs = Except.error () :=
  HanNet.forward_of_asympAnti_some _ _ c h

/-- C6 witness: the raise on a concrete `n_up = n_down = 1` model with
`cusp_anti` configured. -/
theorem hannet_cusp_anti_raises_witness :
    (HanNet.init (trivialConfig 1 1 1 (some (1 / 2)) (some (1 / 2)))).forward
        (constRs (1 + 1)) = Except.error () :=
  hannet_cusp_anti_raises (trivialConfig 1 1 1 (some (1 / 2)) (some (1 / 2)))
    (1 / 2) (constRs (1 + 1)) rfl

/-- C7: the diagnostic context only accumulates records: the amplitude
computed by `forward` is identical for every incoming debug context and equals
the amplitude under the default no-op context `NULL_DEBUG`, and the final
context is the incoming one extended by the recorded entries. -/
theorem hannet_debug_noninterference {nup ndown M : ℕ} {B E L : Type}
    [AddCommMonoid E] (m : HanNet nup ndown M B E L)
    (rs : Fin (nup + ndown) → Point) (dbg : List (String × ℝ)) :
    (m.forwardD rs dbg).1 = (m.forwardD rs NULL_DEBUG).1 ∧
    (m.forwardD rs dbg).2 = dbg ++ (m.forwardD rs NULL_DEBUG).2 ∧
    m.forward rs = (m.forwardD rs dbg).1 := by
  cases hA : m.asympAnti with
  | none =>
      unfold HanNet.forward HanNet.forwardD HanNet.asympAntiF
      rw [hA]
      exact ⟨rfl, by simp [NULL_DEBUG], rfl⟩
  | some c =>
      unfold HanNet.forward HanNet.forwardD HanNet.asympAntiF
      rw [hA]
      exact ⟨rfl, by simp [NULL_DEBUG], rfl⟩

/-- C8: `tracked_parameters` lists `ion_pot` always, `cusp_same` exactly when
the same-spin cusp was configured, `cusp_anti` exactly when the opposite-spin
cusp was configured, and nothing else. -/
theorem hannet_tracked_parameters_spec (cfg : Config nup ndown M B E L) :
    ("ion_pot", cfg.ionPot) ∈ (HanNet.init cfg).tracked_parameters ∧
    ((∃ v, ("cusp_same", v) ∈ (HanNet.init cfg).tracked_parameters) ↔
      cfg.cuspSame ≠ none) ∧
    ((∃ v, ("cusp_anti", v) ∈ (HanNet.init cfg).tracked_parameters) ↔
      cfg.cuspAnti ≠ none) ∧
    ∀ p ∈ (HanNet.init cfg).tracked_parameters,
      p.1 = "ion_pot" ∨ p.1 = "cusp_same" ∨ p.1 = "cusp_anti" := by
  unfold HanNet.tracked_parameters
  rw [HanNet.init_asympSame, HanNet.init_asympAnti, HanNet.init_ionPot]
  cases cfg.cuspSame <;> cases cfg.cuspAnti <;> simp

/-- C8 witness: the accessor on a concrete model with only `cusp_anti`
configured. -/
theorem hannet_tracked_parameters_spec_witness :
    ("ion_pot", (trivialConfig 1 1 1 none (some 1)).ionPot) ∈
      (HanNet.init (trivialConfig 1 1 1 none (some 1))).tracked_parameters ∧
    ((∃ v, ("cusp_same", v) ∈
        (HanNet.init (trivialConfig 1 1 1 none (some 1))).tracked_parameters) ↔
      (trivialConfig 1 1 1 none (some 1)).cuspSame ≠ none) ∧
    ((∃ v, ("cusp_anti", v) ∈
        (HanNet.init (trivialConfig 1 1 1 none (some 1))).tracked_parameters) ↔
      (trivialConfig 1 1 1 none (some 1)).cuspAnti ≠ none) ∧
    ∀ p ∈ (HanNet.init (trivialConfig 1 1 1 none (some 1))).tracked_parameters,
      p.1 = "ion_pot" ∨ p.1 = "cusp_same" ∨ p.1 = "cusp_anti" :=
  hannet_tracked_parameters_spec (trivialConfig 1 1 1 none (some 1))

/-- C9: one `forward` call is a pure function of the model state and the
configuration: the state-passing translation returns the model unchanged, and
a second call on the returned state gives the identical amplitude. -/
theorem hannet_forward_frame {nup ndown M : ℕ} {B E L : Type}
    [AddCommMonoid E] (m : HanNet nup ndown M B E L)
    (rs : Fin (nup + ndown) → Point) :
    (m.forwardP rs).2 = m ∧ (m.forwardP rs).1 = m.forward rs ∧
    ((m.forwardP rs).2.forwardP rs).1 = (m.forwardP rs).1 :=
  ⟨rfl, rfl, rfl⟩

/-- C10: each constructed antisymmetrisation module wraps the pairwise
network obtained by invoking the pair factory as `pair_factory(7, latent_dim)`
(3 + 3 coordinates plus the scalar distance), and the default factory builds
`get_log_dnn` with input dimension exactly 7, output dimension `latent_dim`,
2 layers and no final bias. -/
theorem hannet_pair_factory_in_dim (cfg : Config nup ndown M B E L) :
    (1 < nup → (HanNet.init cfg).antiUp =
      some ⟨cfg.pairFactoryUsed 7 cfg.latentDim, cfg.oddNet⟩) ∧
    (1 < ndown → (HanNet.init cfg).antiDown =
      some ⟨cfg.pairFactoryUsed 7 cfg.latentDim, cfg.oddNet⟩) ∧
    (cfg.pairFactory = none →
      (cfg.pairFactoryUsed 7 cfg.latentDim).inDim = 7 ∧
      (cfg.pairFactoryUsed 7 cfg.latentDim).outDim = cfg.latentDim ∧
      (cfg.pairFactoryUsed 7 cfg.latentDim).nLayers = 2 ∧
      (cfg.pairFactoryUsed 7 cfg.latentDim).lastBias = false) := by
  refine ⟨HanNet.init_antiUp_some cfg, HanNet.init_antiDown_some cfg, fun h => ?_⟩
  unfold Config.pairFactoryUsed Config.defaultPairFactory get_log_dnn
  rw [h]
  exact ⟨rfl, rfl, rfl, rfl⟩

/-- C10 witness: the factory-call shape on a concrete model with two
particles in each spin group and the default factory. -/
theorem hannet_pair_factory_in_dim_witness :
    ((1 : ℕ) < 2 → (HanNet.init (trivialConfig 2 2 1 none none)).antiUp =
      some ⟨(trivialConfig 2 2 1 none none).pairFactoryUsed 7
          (trivialConfig 2 2 1 none none).latentDim,
        (trivialConfig 2 2 1 none none).oddNet⟩) ∧
    ((1 : ℕ) < 2 → (HanNet.init (trivialConfig 2 2 1 none none)).antiDown =
      some ⟨(trivialConfig 2 2 1 none none).pairFactoryUsed 7
          (trivialConfig 2 2 1 none none).latentDim,
        (trivialConfig 2 2 1 none none).oddNet⟩) ∧
    ((trivialConfig 2 2 1 none none).pairFactory = none →
      ((trivialConfig 2 2 1 none none).pairFactoryUsed 7
        (trivialConfig 2 2 1 none none).latentDim).inDim = 7 ∧
      ((trivialConfig 2 2 1 none none).pairFactoryUsed 7
        (trivialConfig 2 2 1 none none).latentDim).outDim =
        (trivialConfig 2 2 1 none none).latentDim ∧
      ((trivialConfig 2 2 1 none none).pairFactoryUsed 7
        (trivialConfig 2 2 1 none none).latentDim).nLayers = 2 ∧
      ((trivialConfig 2 2 1 none none).pairFactoryUsed 7
        (trivialConfig 2 2 1 none none).latentDim).lastBias = false) :=
  hannet_pair_factory_in_dim (trivialConfig 2 2 1 none none)

end Claims

end DLQMC
